import Mathlib

/-!
Verification of the `complex` crate (Cayley-Dickson hypercomplex numbers).

The recursive pair type `Complex<T>` (src/lib.rs) is embedded as the
structure `Cx α`, and each generic Rust impl (`impl<T: ...> ... for
Complex<T>`) as a typeclass instance on `Cx α`, so the embedding keeps the
source's inductive trait structure.  The scalar leaf (`f64`/`f32`) is
modelled by `ℚ` (exact field arithmetic standing in for floating point,
as the claims under verification are algebraic).  `H n` is then the
depth-`n` tower: `H 0 = ℚ`, `H (n+1) = Cx (H n)` — `H 1` is `Complexf64`,
`H 2` is `Quaternionf64`, and so on.

What is translated from where:

* `Identity`, `Conjugate`, `AbsSq`, `Real`, `Fill`, `ImaginaryConstants`,
  `Functions::powu_tail/powu/powi` from src/lib.rs;
* the arithmetic operators `Neg`, `Add`, `Sub`, `Mul`, `Div`, the
  scalar-mixed and the cross-depth operators, and `inv_real::InvReal`
  from src/ops.rs;
* `Display`/`FromStr` at depth 1, including a model of the anchored
  regular expression used by `from_str`, from src/fmt.rs.
-/

namespace CD

/-- The pair structure `Complex<T> { re, im }` (src/lib.rs:78-81). -/
structure Cx (α : Type) where
  re : α
  im : α
deriving DecidableEq, Repr

/-- The `Conjugate` trait (src/lib.rs:775-777). -/
class Conjugate (α : Type) where
  conj : α → α

export Conjugate (conj)

/-- The `Identity` trait (src/lib.rs:582-585). -/
class Identity (α : Type) where
  zeroI : α
  oneI : α

export Identity (zeroI oneI)

/-- The `AbsSq<U>` trait with `U` the scalar type (src/lib.rs:806-808). -/
class AbsSq (α : Type) where
  absSq : α → ℚ

export AbsSq (absSq)

/-- The `Real<U>` trait with `U` the scalar type (src/lib.rs:834-836). -/
class RealPart (α : Type) where
  realPart : α → ℚ

export RealPart (realPart)

/-- The private `inv_real::InvReal` trait (src/ops.rs:186-188). -/
class InvReal (α : Type) where
  invReal : α → α

export InvReal (invReal)

/-- `Mul<f64> for T`: the scalar-multiplication capability the generic code
requires of `T` (`T: Mul<$u, Output = T>` bounds in src/lib.rs). -/
class MulScalar (α : Type) where
  mulScalar : α → ℚ → α

export MulScalar (mulScalar)

/-! ### Scalar base case: the `f32`/`f64` impls, with `ℚ` as the leaf model -/

/-- `impl Conjugate for f64` (src/lib.rs:779-791): a scalar is self-conjugate. -/
instance instConjQ : Conjugate ℚ := ⟨fun x => x⟩

/-- `impl Identity for f64` (src/lib.rs:587-603). -/
instance instIdentityQ : Identity ℚ := ⟨0, 1⟩

/-- `impl AbsSq<f64> for f64` (src/lib.rs:810-815): `x * x`. -/
instance instAbsSqQ : AbsSq ℚ := ⟨fun x => x * x⟩

/-- `impl Real<f64> for f64` (src/lib.rs:838-845). -/
instance instRealPartQ : RealPart ℚ := ⟨fun x => x⟩

/-- `impl InvReal for f64` (src/ops.rs:202-214): `1. / self`. -/
instance instInvRealQ : InvReal ℚ := ⟨fun x => 1 / x⟩

/-- Scalar-by-scalar `Mul<f64> for f64`. -/
instance instMulScalarQ : MulScalar ℚ := ⟨fun x s => x * s⟩

/-! ### Generic impls for the pair type (src/ops.rs and src/lib.rs) -/

/-- `impl<T: Neg> Neg for Complex<T>` (src/ops.rs:72-83): componentwise. -/
instance instNegCx {α : Type} [Neg α] : Neg (Cx α) :=
  ⟨fun z => ⟨-z.re, -z.im⟩⟩

/-- `impl<T: Add> Add for Complex<T>` (src/ops.rs:86-97): componentwise. -/
instance instAddCx {α : Type} [Add α] : Add (Cx α) :=
  ⟨fun z w => ⟨z.re + w.re, z.im + w.im⟩⟩

/-- `impl<T: Sub> Sub for Complex<T>` (src/ops.rs:128-139): componentwise. -/
instance instSubCx {α : Type} [Sub α] : Sub (Cx α) :=
  ⟨fun z w => ⟨z.re - w.re, z.im - w.im⟩⟩

/-- `impl<T> Conjugate for Complex<T>` (src/lib.rs:793-803):
`re: self.re.conj(), im: -self.im`. -/
instance instConjCx {α : Type} [Conjugate α] [Neg α] : Conjugate (Cx α) :=
  ⟨fun z => ⟨conj z.re, -z.im⟩⟩

/-- `impl<T> Mul for Complex<T>` (src/ops.rs:170-181), the Cayley-Dickson
product: `re: self.re * other.re - other.im.conj() * self.im`,
`im: other.im * self.re + self.im * other.re.conj()`. -/
instance instMulCx {α : Type} [Conjugate α] [Add α] [Sub α] [Mul α] : Mul (Cx α) :=
  ⟨fun z w => ⟨z.re * w.re - conj w.im * z.im, w.im * z.re + z.im * conj w.re⟩⟩

/-- `impl<T> Identity for Complex<T>` (src/lib.rs:605-622): `zero` is
all-zero, `one` has real half one and imaginary half zero. -/
instance instIdentityCx {α : Type} [Identity α] : Identity (Cx α) :=
  ⟨⟨zeroI, zeroI⟩, ⟨oneI, zeroI⟩⟩

/-- `impl<T> AbsSq<f64> for Complex<T>` (src/lib.rs:819-826):
`self.re.abs_sq() + self.im.abs_sq()`. -/
instance instAbsSqCx {α : Type} [AbsSq α] : AbsSq (Cx α) :=
  ⟨fun z => absSq z.re + absSq z.im⟩

/-- `impl<T> Real<f64> for Complex<T>` (src/lib.rs:847-855): `self.re.real()`. -/
instance instRealPartCx {α : Type} [RealPart α] : RealPart (Cx α) :=
  ⟨fun z => realPart z.re⟩

/-- `impl<T> InvReal for Complex<T>` (src/ops.rs:190-200): reciprocate only
the real chain, leave `im` unchanged. -/
instance instInvRealCx {α : Type} [InvReal α] : InvReal (Cx α) :=
  ⟨fun z => ⟨invReal z.re, z.im⟩⟩

/-- `impl<T> Mul<f64> for Complex<T>` (src/ops.rs:349-361): componentwise. -/
instance instMulScalarCx {α : Type} [MulScalar α] : MulScalar (Cx α) :=
  ⟨fun z s => ⟨mulScalar z.re s, mulScalar z.im s⟩⟩

/-- `impl<T> Div for Complex<T>` (src/ops.rs:218-227):
`self * other.conj() * inv_real(other * other.conj())`. -/
def dv {α : Type} [Conjugate α] [Add α] [Sub α] [Mul α] [Neg α] [InvReal α]
    (a b : Cx α) : Cx α :=
  a * conj b * invReal (b * conj b)

/-- `impl<T> Div<Complex<T>> for f64` (src/ops.rs:391-400):
`other.conj() * (self / other.abs_sq())`. -/
def scalarDiv {α : Type} [Conjugate α] [Neg α] [AbsSq α] [MulScalar α]
    (s : ℚ) (z : Cx α) : Cx α :=
  mulScalar (conj z) (s / absSq z)

/-- Cross-depth `impl<T> Sub<Complex<Complex<T>>> for Complex<T>`
(src/ops.rs:142-153): `re: self - other.re, im: other.im`
(note: the source does NOT negate `other.im`). -/
def subUp {α : Type} [Sub α] (x : Cx α) (y : Cx (Cx α)) : Cx (Cx α) :=
  ⟨x - y.re, y.im⟩

/-- Cross-depth `impl<T> Sub<Complex<T>> for Complex<Complex<T>>`
(src/ops.rs:156-167): `re: self.re - other, im: self.im`. -/
def subDown {α : Type} [Sub α] (y : Cx (Cx α)) (x : Cx α) : Cx (Cx α) :=
  ⟨y.re - x, y.im⟩

/-- Cross-depth `impl<T> Add<Complex<Complex<T>>> for Complex<T>`
(src/ops.rs:100-111): `re: self + other.re, im: other.im`. -/
def addUp {α : Type} [Add α] (x : Cx α) (y : Cx (Cx α)) : Cx (Cx α) :=
  ⟨x + y.re, y.im⟩

/-- Cross-depth `impl<T> Add<Complex<T>> for Complex<Complex<T>>`
(src/ops.rs:114-125): `re: self.re + other, im: self.im`. -/
def addDown {α : Type} [Add α] (y : Cx (Cx α)) (x : Cx α) : Cx (Cx α) :=
  ⟨y.re + x, y.im⟩

/-- The shallower-to-deeper embedding used to state the cross-depth laws:
the shallow value becomes the real half, the imaginary half is zero. -/
def embedUp {α : Type} [Identity α] (x : Cx α) : Cx (Cx α) :=
  ⟨x, ⟨zeroI, zeroI⟩⟩

/-- `Fill::from_slice` / `Fill::from_vec` (src/lib.rs:713-772): the scalar
leaf takes `v[0]` (`none` models the out-of-bounds panic on an empty slice);
a pair splits the input at `len/2`, first half to `re`, second half to `im`.
No length check is performed anywhere; `from_vec` performs the same
bisection on owned data. -/
class Fill (α : Type) where
  fromSlice : List ℚ → Option α

export Fill (fromSlice)

/-- `impl Fill<f64> for f64` (src/lib.rs:719-739): `v[0]`. -/
instance instFillQ : Fill ℚ := ⟨fun v => v.head?⟩

/-- `impl<T, U> Fill<U> for Complex<T>` (src/lib.rs:741-772). -/
instance instFillCx {α : Type} [Fill α] : Fill (Cx α) :=
  ⟨fun v =>
    let half := v.length / 2
    match fromSlice (α := α) (v.take half), fromSlice (α := α) (v.drop half) with
    | some r, some i => some ⟨r, i⟩
    | _, _ => none⟩

/-- `Functions::powu_tail` (src/lib.rs:424-438): repeated-squaring
accumulator on `Complex<T>`.  `num == 0 → acc`;
even `num → powu_tail(self*self, num/2, acc)`;
odd `num → powu_tail(self*self, (num-1)/2, self*acc)`. -/
def powuTail {α : Type} [Conjugate α] [Add α] [Sub α] [Mul α] :
    Cx α → Nat → Cx α → Cx α
  | _, 0, acc => acc
  | z, m + 1, acc =>
    if (m + 1) % 2 = 0 then powuTail (z * z) ((m + 1) / 2) acc
    else powuTail (z * z) (m / 2) (z * acc)
  termination_by _ m _ => m
  decreasing_by all_goals (simp_wf; omega)

/-- `Functions::powu` (src/lib.rs:440-442): `powu_tail(self, num, one())`. -/
def powu {α : Type} [Conjugate α] [Add α] [Sub α] [Mul α] [Identity α]
    (z : Cx α) (m : Nat) : Cx α :=
  powuTail z m oneI

/-- `Functions::powi` (src/lib.rs:444-453): `num == 0 → zero()`,
`num < 0 → 1. / powu(self, -num as u32)`, `num > 0 → powu(self, num)`.
The exponent is an `i32`; `Int.natAbs` models `-num as u32` on its range. -/
def powi {α : Type} [Conjugate α] [Add α] [Sub α] [Mul α] [Identity α]
    [Neg α] [AbsSq α] [MulScalar α] (z : Cx α) (num : Int) : Cx α :=
  if num = 0 then zeroI
  else if num < 0 then scalarDiv 1 (powu z num.natAbs)
  else powu z num.toNat

/-- The naive linear-recursion power: fold `Mul` starting from `one()`
(the spec's "z multiplied by itself n times"; the `Product` fold of
src/ops.rs:265-275 applied to `n` copies of `z`). -/
def naivePow {α : Type} [Conjugate α] [Add α] [Sub α] [Mul α] [Identity α]
    (z : Cx α) : Nat → Cx α
  | 0 => oneI
  | m + 1 => naivePow z m * z

/-- The depth tower rooted at the scalar leaf: `H 1` is `Complexf64`,
`H 2` is `Quaternionf64`, `H 3` is `Octonionf64`, and so on. -/
@[reducible] def H : Nat → Type
  | 0 => ℚ
  | n + 1 => Cx (H n)

instance instDecEqH : (n : Nat) → DecidableEq (H n)
  | 0 => inferInstanceAs (DecidableEq ℚ)
  | n + 1 => letI := instDecEqH n; inferInstanceAs (DecidableEq (Cx (H n)))

instance instNegH : (n : Nat) → Neg (H n)
  | 0 => inferInstanceAs (Neg ℚ)
  | n + 1 => letI := instNegH n; inferInstanceAs (Neg (Cx (H n)))

instance instConjH : (n : Nat) → Conjugate (H n)
  | 0 => instConjQ
  | n + 1 =>
    letI := instConjH n; letI := instNegH n
    inferInstanceAs (Conjugate (Cx (H n)))

instance instAddInstH : (n : Nat) → Add (H n)
  | 0 => inferInstanceAs (Add ℚ)
  | n + 1 => letI := instAddInstH n; inferInstanceAs (Add (Cx (H n)))

instance instSubInstH : (n : Nat) → Sub (H n)
  | 0 => inferInstanceAs (Sub ℚ)
  | n + 1 => letI := instSubInstH n; inferInstanceAs (Sub (Cx (H n)))

instance instMulInstH : (n : Nat) → Mul (H n)
  | 0 => inferInstanceAs (Mul ℚ)
  | n + 1 =>
    letI := instConjH n; letI := instAddInstH n; letI := instSubInstH n
    letI := instMulInstH n
    inferInstanceAs (Mul (Cx (H n)))

instance instIdentityH : (n : Nat) → Identity (H n)
  | 0 => instIdentityQ
  | n + 1 => letI := instIdentityH n; inferInstanceAs (Identity (Cx (H n)))

instance instAbsSqH : (n : Nat) → AbsSq (H n)
  | 0 => instAbsSqQ
  | n + 1 => letI := instAbsSqH n; inferInstanceAs (AbsSq (Cx (H n)))

instance instRealPartH : (n : Nat) → RealPart (H n)
  | 0 => instRealPartQ
  | n + 1 => letI := instRealPartH n; inferInstanceAs (RealPart (Cx (H n)))

instance instInvRealH : (n : Nat) → InvReal (H n)
  | 0 => instInvRealQ
  | n + 1 => letI := instInvRealH n; inferInstanceAs (InvReal (Cx (H n)))

instance instMulScalarH : (n : Nat) → MulScalar (H n)
  | 0 => instMulScalarQ
  | n + 1 => letI := instMulScalarH n; inferInstanceAs (MulScalar (Cx (H n)))

instance instFillH : (n : Nat) → Fill (H n)
  | 0 => instFillQ
  | n + 1 => letI := instFillH n; inferInstanceAs (Fill (Cx (H n)))

/-- `ImaginaryConstants::i` (src/lib.rs:656-668): at depth 1
(`type_name::<T>()` is `f64`/`f32`) `(zero, one)`; deeper, `(T::i(), zero)`.
The scalar leaf impl (src/lib.rs:631-651) returns `0.`. -/
def iC : (n : Nat) → H n
  | 0 => 0
  | 1 => ⟨zeroI, oneI⟩
  | n + 2 => ⟨iC (n + 1), zeroI⟩

/-- `ImaginaryConstants::j` (src/lib.rs:670-688): at depth 1 `(zero, one)`;
at depth 2 (`T = Complex<f64>/Complex<f32>`) `(zero, one)`;
deeper, `(T::j(), zero)`.  The scalar leaf returns `0.`. -/
def jC : (n : Nat) → H n
  | 0 => 0
  | 1 => ⟨zeroI, oneI⟩
  | 2 => ⟨zeroI, oneI⟩
  | n + 3 => ⟨jC (n + 2), zeroI⟩

/-- `ImaginaryConstants::k` (src/lib.rs:690-708): at depth 1 `(zero, one)`;
at depth 2 `(zero, T::k())`; deeper, `(T::k(), zero)`.
The scalar leaf returns `0.`. -/
def kC : (n : Nat) → H n
  | 0 => 0
  | 1 => ⟨zeroI, oneI⟩
  | 2 => ⟨zeroI, kC 1⟩
  | n + 3 => ⟨kC (n + 2), zeroI⟩

/-- The "real chain" embedding of a scalar: real leaf `s`, all other
leaves zero (used to state the norm-is-real and division laws). -/
def embed : (n : Nat) → ℚ → H n
  | 0, s => s
  | _ + 1, s => ⟨embed _ s, zeroI⟩

/-- Multiplication in `ℚ[x]/(x² − t·x + q)`; `(a, b)` stands for `a + b·z`.
The component expressions are arranged to match the rewrites in `rep_mulH`. -/
def qmul (t q : ℚ) (u v : ℚ × ℚ) : ℚ × ℚ :=
  (v.1 * u.1 - q * (v.2 * u.2), v.2 * u.1 + (v.1 * u.2 + t * (v.2 * u.2)))

/-- Interpretation of `(a, b)` as `a + b·z`. -/
def rep {n : Nat} (z : H n) (u : ℚ × ℚ) : H n :=
  embed n u.1 + mulScalar z u.2

/-- `powu_tail` transcribed into the quadratic algebra. -/
def qpowTail (t q : ℚ) : ℚ × ℚ → Nat → ℚ × ℚ → ℚ × ℚ
  | _, 0, acc => acc
  | u, m + 1, acc =>
    if (m + 1) % 2 = 0 then qpowTail t q (qmul t q u u) ((m + 1) / 2) acc
    else qpowTail t q (qmul t q u u) (m / 2) (qmul t q u acc)
  termination_by _ m _ => m
  decreasing_by all_goals (simp_wf; omega)

/-- The naive power in the quadratic algebra. -/
def qpow (t q : ℚ) (u : ℚ × ℚ) : Nat → ℚ × ℚ
  | 0 => (1, 0)
  | m + 1 => qmul t q (qpow t q u m) u

/-! ### Depth-1 serialization (src/fmt.rs)

`from_str` for `Complex<f64>` (src/fmt.rs:81-102) builds the anchored
pattern `^(F)?(?:(F)[iI])?$` where
`F = [+-]?(?:\d+|\d*\.\d+|\d+\.\d*)(?:[eE][+-]?\d{1,4})?`, runs
`Regex::captures(s).unwrap()` — panicking when the pattern does not match
the whole input — and then parses the two captured groups with
`str::parse::<f64>`, defaulting a failed group to zero and returning
`Err(ComplexParseError)` only when both groups fail to parse.

The matcher below enumerates candidate `(consumed, rest)` splits of each
regex piece in the engine's leftmost-first priority order (greedy
quantifiers longest-first, alternation branches in written order);
`captures1` returns the first full match, and `none` models the
`unwrap()` panic on a non-matching input. -/

/-- All ways to match a piece, then continue with `f` on the rest. -/
def seqOpts (xs : List (List Char × List Char))
    (f : List Char → List (List Char × List Char)) : List (List Char × List Char) :=
  xs.flatMap fun p => (f p.2).map fun q => (p.1 ++ q.1, q.2)

/-- `[+-]?`: consume an optional sign (greedy: present first). -/
def signOpts (s : List Char) : List (List Char × List Char) :=
  match s with
  | c :: r => if c = '+' ∨ c = '-' then [([c], r), ([], s)] else [([], s)]
  | [] => [([], [])]

/-- A single character satisfying `p`. -/
def charOpt (p : Char → Bool) (s : List Char) : List (List Char × List Char) :=
  match s with
  | c :: r => if p c then [([c], r)] else []
  | [] => []

/-- `\d{lo,hi}` (with `hi = s.length` for unbounded `+`/`*`): digit runs,
greedy, longest first. -/
def dRange (lo hi : Nat) (s : List Char) : List (List Char × List Char) :=
  let d := min (s.takeWhile Char.isDigit).length hi
  (List.range (d + 1)).reverse.filterMap fun j =>
    if lo ≤ j then some (s.take j, s.drop j) else none

/-- `\d+|\d*\.\d+|\d+\.\d*`: the three mantissa branches in written order. -/
def mantissaOpts (s : List Char) : List (List Char × List Char) :=
  dRange 1 s.length s ++
  seqOpts (dRange 0 s.length s)
    (fun r => seqOpts (charOpt (· = '.') r) (fun r2 => dRange 1 r2.length r2)) ++
  seqOpts (dRange 1 s.length s)
    (fun r => seqOpts (charOpt (· = '.') r) (fun r2 => dRange 0 r2.length r2))

/-- `(?:[eE][+-]?\d{1,4})?`: optional exponent (present first). -/
def expOpts (s : List Char) : List (List Char × List Char) :=
  seqOpts (charOpt (fun c => c = 'e' ∨ c = 'E') s)
    (fun r => seqOpts (signOpts r) (fun r2 => dRange 1 4 r2)) ++ [([], s)]

/-- The float literal `F`. -/
def floatOpts (s : List Char) : List (List Char × List Char) :=
  seqOpts (signOpts s) (fun r => seqOpts (mantissaOpts r) expOpts)

/-- Captures of the anchored depth-1 pattern `^(F)?(?:(F)[iI])?$`:
the first candidate (in priority order) that consumes the whole input;
`none` when the pattern does not match (where the source panics). -/
def captures1 (s : List Char) : Option (Option (List Char) × Option (List Char)) :=
  let g1 : List (Option (List Char) × List Char) :=
    ((floatOpts s).map fun p => (some p.1, p.2)) ++ [(none, s)]
  let cands : List (Option (List Char) × Option (List Char) × List Char) :=
    g1.flatMap fun p =>
      ((floatOpts p.2).flatMap fun q =>
        match q.2 with
        | c :: r3 => if c = 'i' ∨ c = 'I' then [(p.1, some q.1, r3)] else []
        | [] => []) ++ [(p.1, none, p.2)]
  ((cands.filter fun t => t.2.2 = []).head?).map fun t => (t.1, t.2.1)

/-- Numeric value of a digit run. -/
def digitsVal (ds : List Char) : Nat :=
  ds.foldl (fun a c => a * 10 + (c.toNat - 48)) 0

/-- The syntactic pieces of a decimal float literal: sign, integer digits,
fraction digits, exponent sign and exponent digits. -/
structure FloatParts where
  negS : Bool
  ip : List Char
  fp : List Char
  eneg : Bool
  ed : List Char
deriving DecidableEq, Repr

/-- Modelled from the spec: the syntactic stage of the scalar
`str::parse::<f64>` base-case collaborator (the crate calls the standard
library here) on the decimal float-literal grammar of §4.4; the empty
string and non-literal text fail. -/
def splitFloat (s : List Char) : Option FloatParts :=
  let (negS, s1) : Bool × List Char :=
    match s with
    | '+' :: r => (false, r)
    | '-' :: r => (true, r)
    | _ => (false, s)
  let ip := s1.takeWhile Char.isDigit
  let s2 := s1.dropWhile Char.isDigit
  let (fp, s3) : List Char × List Char :=
    match s2 with
    | '.' :: r => (r.takeWhile Char.isDigit, r.dropWhile Char.isDigit)
    | _ => ([], s2)
  if ip.isEmpty ∧ fp.isEmpty then none
  else
    match s3 with
    | [] => some ⟨negS, ip, fp, false, []⟩
    | c :: r =>
      if c = 'e' ∨ c = 'E' then
        let (eneg, r2) : Bool × List Char :=
          match r with
          | '+' :: t => (false, t)
          | '-' :: t => (true, t)
          | _ => (false, r)
        let ed := r2.takeWhile Char.isDigit
        if ed.isEmpty ∨ ¬(r2.dropWhile Char.isDigit).isEmpty then none
        else some ⟨negS, ip, fp, eneg, ed⟩
      else none

/-- The rational value of a parsed float literal (exact where `f64`
would round). -/
def partsVal (p : FloatParts) : ℚ :=
  let base := (if p.negS then (-1 : ℚ) else 1) *
    ((digitsVal p.ip : ℚ) + (digitsVal p.fp : ℚ) / (10 : ℚ) ^ p.fp.length)
  if p.eneg then base / (10 : ℚ) ^ digitsVal p.ed else base * (10 : ℚ) ^ digitsVal p.ed

/-- The scalar parse: split, then evaluate. -/
def ratParseFloat (s : List Char) : Option ℚ :=
  (splitFloat s).map partsVal

/-- `ComplexParseError` (src/fmt.rs:65-66): the typed parse failure. -/
structure ComplexParseError where
deriving DecidableEq, Repr

instance instDecEqExcept {ε α : Type} [DecidableEq ε] [DecidableEq α] :
    DecidableEq (Except ε α) := fun a b =>
  match a, b with
  | .error x, .error y =>
    if h : x = y then isTrue (by rw [h]) else isFalse (fun hh => h (by cases hh; rfl))
  | .ok x, .ok y =>
    if h : x = y then isTrue (by rw [h]) else isFalse (fun hh => h (by cases hh; rfl))
  | .error _, .ok _ => isFalse (fun hh => by cases hh)
  | .ok _, .error _ => isFalse (fun hh => by cases hh)

/-- `FromStr for Complex<T>` at depth 1 (src/fmt.rs:81-102).
`none` models the panic of `Regex::captures(s).unwrap()` when the anchored
pattern does not match; otherwise the two captured groups are parsed, a
missing/failed group defaults to zero, and `Err(ComplexParseError)` is
returned only when both fail. -/
def fromStr1 (s : String) : Option (Except ComplexParseError (Cx ℚ)) :=
  match captures1 s.data with
  | none => none
  | some (t1, t2) =>
    let textx := t1.getD []
    let texty := t2.getD []
    some (match ratParseFloat textx, ratParseFloat texty with
      | some x, some y => .ok ⟨x, y⟩
      | some x, none => .ok ⟨x, 0⟩
      | none, some y => .ok ⟨0, y⟩
      | none, none => .error ⟨⟩)

/-- Modelled from the spec: the scalar `Display` base-case collaborator
(`f64::to_string`, standard library) on the integer-valued scalars used in
the examples: plain decimal rendering, `-` prefix for negatives. -/
def ratDisplay (q : ℚ) : String :=
  if q.den = 1 then toString q.num else toString q

/-- `Display for Complex<T>` at depth 1 (src/fmt.rs:16-24):
`"{re} + {im}i"` when the formatted `im` does not start with `-`,
else `"{re} - {im-without-sign}i"`.  Note the spaces around the sign. -/
def fmt1 (z : Cx ℚ) : String :=
  let real := ratDisplay z.re
  let imag := ratDisplay z.im
  if imag.take 1 ≠ "-" then real ++ " + " ++ imag ++ "i"
  else real ++ " - " ++ imag.drop 1 ++ "i"

/-! ### Definitional computation lemmas for the generic impls -/

theorem negD {α : Type} [Neg α] (z : Cx α) : -z = ⟨-z.re, -z.im⟩ := rfl

theorem addD {α : Type} [Add α] (z w : Cx α) : z + w = ⟨z.re + w.re, z.im + w.im⟩ := rfl

theorem subD {α : Type} [Sub α] (z w : Cx α) : z - w = ⟨z.re - w.re, z.im - w.im⟩ := rfl

theorem conjD {α : Type} [Conjugate α] [Neg α] (z : Cx α) :
    conj z = ⟨conj z.re, -z.im⟩ := rfl

theorem mulD {α : Type} [Conjugate α] [Add α] [Sub α] [Mul α] (z w : Cx α) :
    z * w = ⟨z.re * w.re - conj w.im * z.im, w.im * z.re + z.im * conj w.re⟩ := rfl

theorem zeroD {α : Type} [Identity α] : (zeroI : Cx α) = ⟨zeroI, zeroI⟩ := rfl

theorem oneD {α : Type} [Identity α] : (oneI : Cx α) = ⟨oneI, zeroI⟩ := rfl

theorem absSqD {α : Type} [AbsSq α] (z : Cx α) : absSq z = absSq z.re + absSq z.im := rfl

theorem realPartD {α : Type} [RealPart α] (z : Cx α) : realPart z = realPart z.re := rfl

theorem invRealD {α : Type} [InvReal α] (z : Cx α) : invReal z = ⟨invReal z.re, z.im⟩ := rfl

theorem mulScalarD {α : Type} [MulScalar α] (z : Cx α) (s : ℚ) :
    mulScalar z s = ⟨mulScalar z.re s, mulScalar z.im s⟩ := rfl

theorem fromSliceD {α : Type} [Fill α] (v : List ℚ) :
    fromSlice (α := Cx α) v =
      match fromSlice (α := α) (v.take (v.length / 2)),
            fromSlice (α := α) (v.drop (v.length / 2)) with
      | some r, some i => some ⟨r, i⟩
      | _, _ => none := rfl

theorem conjQ (x : ℚ) : conj x = x := rfl
theorem mulScalarQ (x s : ℚ) : mulScalar x s = x * s := rfl
theorem absSqQ (x : ℚ) : absSq x = x * x := rfl
theorem realPartQ (x : ℚ) : realPart x = x := rfl
theorem invRealQ (x : ℚ) : invReal x = 1 / x := rfl
theorem zeroQ : (zeroI : ℚ) = 0 := rfl
theorem oneQ : (oneI : ℚ) = 1 := rfl
theorem fromSliceQ (v : List ℚ) : fromSlice (α := ℚ) v = v.head? := rfl

/-! ### Additive structure

The componentwise operators form an additive commutative group at every
depth; registering the instance (with the source-translated operators as
its data) makes Mathlib's additive lemmas and `abel` available. -/

instance instZeroCx {α : Type} [Identity α] : Zero (Cx α) := ⟨zeroI⟩
instance instOneCx {α : Type} [Identity α] : One (Cx α) := ⟨oneI⟩
instance instZeroH {n : Nat} : Zero (H n) := ⟨zeroI⟩
instance instOneH {n : Nat} : One (H n) := ⟨oneI⟩

theorem zeroI_def {n : Nat} : (zeroI : H n) = 0 := rfl
theorem oneI_def {n : Nat} : (oneI : H n) = 1 := rfl
theorem zeroHD {n : Nat} : (0 : H (n + 1)) = ⟨(0 : H n), (0 : H n)⟩ := rfl
theorem oneHD {n : Nat} : (1 : H (n + 1)) = ⟨(1 : H n), (0 : H n)⟩ := rfl

theorem add_commH : ∀ {n : Nat} (x y : H n), x + y = y + x
  | 0, x, y => add_comm x y
  | _ + 1, x, y => by
    simp only [addD, Cx.mk.injEq]
    exact ⟨add_commH x.re y.re, add_commH x.im y.im⟩

theorem add_assocH : ∀ {n : Nat} (x y z : H n), x + y + z = x + (y + z)
  | 0, x, y, z => add_assoc x y z
  | _ + 1, x, y, z => by
    simp only [addD, Cx.mk.injEq]
    exact ⟨add_assocH x.re y.re z.re, add_assocH x.im y.im z.im⟩

theorem zero_addH : ∀ {n : Nat} (x : H n), (0 : H n) + x = x
  | 0, x => zero_add x
  | _ + 1, x => by
    simp only [zeroHD, addD, zero_addH x.re, zero_addH x.im]

theorem add_zeroH : ∀ {n : Nat} (x : H n), x + (0 : H n) = x
  | 0, x => add_zero x
  | _ + 1, x => by
    simp only [zeroHD, addD, add_zeroH x.re, add_zeroH x.im]

theorem neg_add_cancelH : ∀ {n : Nat} (x : H n), -x + x = 0
  | 0, x => neg_add_cancel x
  | _ + 1, x => by
    simp only [zeroHD, addD, negD, Cx.mk.injEq]
    exact ⟨neg_add_cancelH x.re, neg_add_cancelH x.im⟩

theorem sub_eq_add_negH : ∀ {n : Nat} (x y : H n), x - y = x + -y
  | 0, x, y => sub_eq_add_neg x y
  | _ + 1, x, y => by
    simp only [subD, addD, negD, Cx.mk.injEq]
    exact ⟨sub_eq_add_negH x.re y.re, sub_eq_add_negH x.im y.im⟩

instance instAddCommGroupH {n : Nat} : AddCommGroup (H n) where
  add := (· + ·)
  zero := 0
  neg := (- ·)
  sub := (· - ·)
  add_assoc := add_assocH
  zero_add := zero_addH
  add_zero := add_zeroH
  add_comm := add_commH
  neg_add_cancel := neg_add_cancelH
  sub_eq_add_neg := sub_eq_add_negH
  nsmul := nsmulRec
  zsmul := zsmulRec
  nsmul_zero := fun _ => rfl
  nsmul_succ := fun _ _ => rfl
  zsmul_zero' := fun _ => rfl
  zsmul_succ' := fun _ _ => rfl
  zsmul_neg' := fun _ _ => rfl

/-! ### Conjugation, embedding and scalar-multiplication lemmas -/

theorem embedD {n : Nat} (s : ℚ) : embed (n + 1) s = ⟨embed n s, 0⟩ := rfl

theorem conj_addH : ∀ {n : Nat} (x y : H n), conj (x + y) = conj x + conj y
  | 0, _, _ => rfl
  | _ + 1, x, y => by
    simp only [addD, conjD, conj_addH x.re y.re, Cx.mk.injEq, true_and, neg_add_rev]
    exact add_commH _ _

theorem conj_negH : ∀ {n : Nat} (x : H n), conj (-x) = -conj x
  | 0, _ => rfl
  | _ + 1, x => by
    simp only [negD, conjD, conj_negH x.re, Cx.mk.injEq]

theorem conj_zeroH : ∀ {n : Nat}, conj (0 : H n) = 0
  | 0 => rfl
  | n + 1 => by
    simp only [zeroHD, conjD, conj_zeroH (n := n), neg_zero]

theorem conj_conjH : ∀ {n : Nat} (x : H n), conj (conj x) = x
  | 0, _ => rfl
  | _ + 1, x => by
    simp only [conjD, conj_negH, conj_conjH x.re, neg_neg]

theorem conj_embedH : ∀ {n : Nat} (s : ℚ), conj (embed n s) = embed n s
  | 0, _ => rfl
  | _ + 1, s => by
    simp only [embedD, conjD, conj_embedH s, neg_zero]

theorem embed_zeroH : ∀ {n : Nat}, embed n 0 = (0 : H n)
  | 0 => rfl
  | n + 1 => by simp only [embedD, zeroHD, embed_zeroH (n := n)]

theorem embed_oneH : ∀ {n : Nat}, embed n 1 = (1 : H n)
  | 0 => rfl
  | n + 1 => by simp only [embedD, oneHD, embed_oneH (n := n), embed_zeroH (n := n)]

theorem embed_addH : ∀ {n : Nat} (a b : ℚ), embed n (a + b) = embed n a + embed n b
  | 0, _, _ => rfl
  | _ + 1, a, b => by
    simp only [embedD, addD, embed_addH a b, add_zero]

theorem embed_negH : ∀ {n : Nat} (a : ℚ), embed n (-a) = -embed n a
  | 0, _ => rfl
  | _ + 1, a => by
    simp only [embedD, negD, embed_negH a, neg_zero]

theorem embed_subH {n : Nat} (a b : ℚ) : embed n (a - b) = embed n a - embed n b := by
  rw [show a - b = a + -b from sub_eq_add_neg a b, embed_addH, embed_negH, sub_eq_add_neg]

theorem mulScalar_zero_valH : ∀ {n : Nat} (s : ℚ), mulScalar (0 : H n) s = 0
  | 0, s => by simp [mulScalarQ]
  | _ + 1, s => by
    simp only [zeroHD, mulScalarD, mulScalar_zero_valH s]

theorem mulScalar_zeroH : ∀ {n : Nat} (z : H n), mulScalar z 0 = 0
  | 0, z => by simp [mulScalarQ]
  | _ + 1, z => by
    simp only [mulScalarD, mulScalar_zeroH z.re, mulScalar_zeroH z.im, zeroHD]

theorem mulScalar_oneH : ∀ {n : Nat} (z : H n), mulScalar z 1 = z
  | 0, z => by simp [mulScalarQ]
  | _ + 1, z => by
    simp only [mulScalarD, mulScalar_oneH z.re, mulScalar_oneH z.im]

theorem mulScalar_mulScalarH :
    ∀ {n : Nat} (z : H n) (a b : ℚ), mulScalar (mulScalar z a) b = mulScalar z (a * b)
  | 0, z, a, b => by simp [mulScalarQ, mul_assoc]
  | _ + 1, z, a, b => by
    simp only [mulScalarD, mulScalar_mulScalarH z.re a b, mulScalar_mulScalarH z.im a b]

theorem mulScalar_addH :
    ∀ {n : Nat} (x y : H n) (s : ℚ), mulScalar (x + y) s = mulScalar x s + mulScalar y s
  | 0, x, y, s => by simp [mulScalarQ]; ring
  | _ + 1, x, y, s => by
    simp only [addD, mulScalarD, mulScalar_addH x.re y.re s, mulScalar_addH x.im y.im s]

theorem mulScalar_add_scalarH :
    ∀ {n : Nat} (z : H n) (a b : ℚ), mulScalar z (a + b) = mulScalar z a + mulScalar z b
  | 0, z, a, b => by simp [mulScalarQ]; ring
  | _ + 1, z, a, b => by
    simp only [mulScalarD, mulScalar_add_scalarH z.re a b, mulScalar_add_scalarH z.im a b, addD]

theorem mulScalar_negH :
    ∀ {n : Nat} (x : H n) (s : ℚ), mulScalar (-x) s = -mulScalar x s
  | 0, x, s => by simp [mulScalarQ]
  | _ + 1, x, s => by
    simp only [negD, mulScalarD, mulScalar_negH x.re s, mulScalar_negH x.im s]

theorem mulScalar_subH :
    ∀ {n : Nat} (x y : H n) (s : ℚ), mulScalar (x - y) s = mulScalar x s - mulScalar y s
  | 0, x, y, s => by simp [mulScalarQ]; ring
  | _ + 1, x, y, s => by
    simp only [subD, mulScalarD, mulScalar_subH x.re y.re s, mulScalar_subH x.im y.im s]

theorem mulScalar_embedH :
    ∀ {n : Nat} (q s : ℚ), mulScalar (embed n q) s = embed n (q * s)
  | 0, q, s => rfl
  | _ + 1, q, s => by
    simp only [embedD, mulScalarD, mulScalar_embedH q s, mulScalar_zero_valH s]

theorem conj_mulScalarH :
    ∀ {n : Nat} (z : H n) (s : ℚ), conj (mulScalar z s) = mulScalar (conj z) s
  | 0, z, s => rfl
  | _ + 1, z, s => by
    simp only [mulScalarD, conjD, conj_mulScalarH z.re s, mulScalar_negH z.im s]

/-! ### Bilinearity of the Cayley-Dickson product, and the norm/trace laws -/

theorem mul_zero_bothH : ∀ {n : Nat} (x : H n), (0 : H n) * x = 0 ∧ x * (0 : H n) = 0
  | 0, x => by constructor <;> simp
  | _ + 1, x => by
    constructor <;>
      simp only [zeroHD, mulD, conj_zeroH,
        (mul_zero_bothH x.re).1, (mul_zero_bothH x.re).2,
        (mul_zero_bothH x.im).1, (mul_zero_bothH x.im).2,
        (mul_zero_bothH (conj x.re)).1, (mul_zero_bothH (conj x.re)).2,
        (mul_zero_bothH (conj x.im)).1, (mul_zero_bothH (conj x.im)).2,
        sub_zero, add_zero, sub_self]

theorem mul_negL_H : ∀ {n : Nat} (x y : H n), -x * y = -(x * y) ∧ x * -y = -(x * y)
  | 0, x, y => by constructor <;> ring
  | _ + 1, x, y => by
    constructor
    · simp only [negD, mulD, conj_negH,
        (mul_negL_H x.re y.re).1, (mul_negL_H (conj y.im) x.im).2,
        (mul_negL_H y.im x.re).2, (mul_negL_H x.im (conj y.re)).1, Cx.mk.injEq]
      constructor <;> abel
    · simp only [negD, mulD, conj_negH,
        (mul_negL_H x.re y.re).2, (mul_negL_H (conj y.im) x.im).1,
        (mul_negL_H y.im x.re).1, (mul_negL_H x.im (conj y.re)).2, Cx.mk.injEq]
      constructor <;> abel

theorem mul_add_bothH :
    ∀ {n : Nat} (x y z : H n),
      x * (y + z) = x * y + x * z ∧ (y + z) * x = y * x + z * x
  | 0, x, y, z => by constructor <;> ring
  | _ + 1, x, y, z => by
    constructor
    · simp only [addD, mulD, conj_addH,
        (mul_add_bothH x.re y.re z.re).1, (mul_add_bothH x.im (conj y.im) (conj z.im)).2,
        (mul_add_bothH x.re y.im z.im).2, (mul_add_bothH x.im (conj y.re) (conj z.re)).1,
        Cx.mk.injEq]
      constructor <;> abel
    · simp only [addD, mulD,
        (mul_add_bothH x.re y.re z.re).2, (mul_add_bothH (conj x.im) y.im z.im).1,
        (mul_add_bothH x.im y.re z.re).1, (mul_add_bothH (conj x.re) y.im z.im).2,
        Cx.mk.injEq]
      constructor <;> abel

theorem mul_sub_rightH {n : Nat} (x y z : H n) : x * (y - z) = x * y - x * z := by
  rw [sub_eq_add_neg, (mul_add_bothH x y (-z)).1, (mul_negL_H x z).2, sub_eq_add_neg]

theorem mul_sub_leftH {n : Nat} (x y z : H n) : (y - z) * x = y * x - z * x := by
  rw [sub_eq_add_neg, (mul_add_bothH x y (-z)).2, (mul_negL_H z x).1, sub_eq_add_neg]

theorem mulScalar_mul_bothH :
    ∀ {n : Nat} (x y : H n) (s : ℚ),
      mulScalar x s * y = mulScalar (x * y) s ∧
      x * mulScalar y s = mulScalar (x * y) s
  | 0, x, y, s => by constructor <;> (simp [mulScalarQ]; ring)
  | _ + 1, x, y, s => by
    constructor
    · simp only [mulScalarD, mulD, conj_mulScalarH,
        (mulScalar_mul_bothH x.re y.re s).1, (mulScalar_mul_bothH (conj y.im) x.im s).2,
        (mulScalar_mul_bothH y.im x.re s).2, (mulScalar_mul_bothH x.im (conj y.re) s).1,
        mulScalar_subH, mulScalar_addH]
    · simp only [mulScalarD, mulD, conj_mulScalarH,
        (mulScalar_mul_bothH x.re y.re s).2, (mulScalar_mul_bothH (conj y.im) x.im s).1,
        (mulScalar_mul_bothH y.im x.re s).1, (mulScalar_mul_bothH x.im (conj y.re) s).2,
        mulScalar_subH, mulScalar_addH]

theorem embed_mul_bothH :
    ∀ {n : Nat} (s : ℚ) (x : H n),
      embed n s * x = mulScalar x s ∧ x * embed n s = mulScalar x s
  | 0, s, x => by constructor <;> simp [mulScalarQ, embed, mul_comm]
  | _ + 1, s, x => by
    constructor
    · simp only [embedD, mulD, mulScalarD, conj_zeroH, conj_embedH,
        (embed_mul_bothH s x.re).1, (embed_mul_bothH s x.im).2,
        (mul_zero_bothH (conj x.im)).2, (mul_zero_bothH (conj x.re)).1,
        sub_zero, add_zero]
    · simp only [embedD, mulD, mulScalarD, conj_zeroH, conj_embedH,
        (embed_mul_bothH s x.re).2, (embed_mul_bothH s x.im).2,
        (mul_zero_bothH x.im).1, (mul_zero_bothH x.re).1,
        sub_zero, add_zero, zero_add]

theorem normRealH :
    ∀ {n : Nat} (z : H n), z * conj z = embed n (absSq z) ∧ conj z * z = embed n (absSq z)
  | 0, z => ⟨rfl, rfl⟩
  | _ + 1, z => by
    constructor
    · simp only [conjD, mulD, absSqD, embedD, conj_negH, conj_conjH,
        (normRealH z.re).1, (normRealH z.im).2,
        (mul_negL_H (conj z.im) z.im).1, (mul_negL_H z.im z.re).1,
        embed_addH, Cx.mk.injEq]
      constructor <;> abel
    · simp only [conjD, mulD, absSqD, embedD, conj_negH, conj_conjH,
        (normRealH z.re).2, (normRealH z.im).2,
        (mul_negL_H (conj z.im) z.im).2, (mul_negL_H z.im (conj z.re)).1,
        embed_addH, Cx.mk.injEq]
      constructor <;> abel

theorem traceH : ∀ {n : Nat} (z : H n), z + conj z = embed n (2 * realPart z)
  | 0, z => by simp [conjQ, realPartQ, embed]; ring
  | _ + 1, z => by
    simp only [conjD, addD, embedD, realPartD, traceH z.re, add_neg_cancel]

theorem conj_eqH {n : Nat} (z : H n) : conj z = embed n (2 * realPart z) - z :=
  eq_sub_of_add_eq' (traceH z)

theorem zsqH {n : Nat} (z : H n) :
    z * z = mulScalar z (2 * realPart z) - embed n (absSq z) := by
  have h : embed n (absSq z) = mulScalar z (2 * realPart z) - z * z := by
    calc embed n (absSq z) = z * conj z := (normRealH z).1.symm
      _ = z * (embed n (2 * realPart z) - z) := by rw [← conj_eqH]
      _ = z * embed n (2 * realPart z) - z * z := mul_sub_rightH z _ z
      _ = mulScalar z (2 * realPart z) - z * z := by
            rw [(embed_mul_bothH (2 * realPart z) z).2]
  rw [h, sub_sub_cancel]

/-! ### Division is conjugate-multiplication scaled by the reciprocal norm -/

theorem invReal_embedH : ∀ {n : Nat} (s : ℚ), invReal (embed n s) = embed n (1 / s)
  | 0, s => rfl
  | n + 1, s => by
    simp only [embedD, invRealD, invReal_embedH (n := n) s]

theorem dv_eqH {n : Nat} (a b : H (n + 1)) :
    dv a b = mulScalar (a * conj b) (1 / absSq b) := by
  unfold dv
  rw [(normRealH b).1, invReal_embedH, (embed_mul_bothH (1 / absSq b) (a * conj b)).2]

/-! ### The commutative quadratic subalgebra generated by one element

Every element `z` satisfies `z² = t·z − q` with `t = 2·real(z)` and
`q = abs_sq(z)`, so the span of `1` and `z` is closed under the product
and is isomorphic to the commutative, associative algebra `ℚ[x]/(x²−t·x+q)`.
Both `powu` (repeated squaring) and the naive product fold stay inside this
subalgebra, which is why they agree even where the ambient algebra stops
being associative. -/

theorem qmul_one_right (t q : ℚ) (u : ℚ × ℚ) : qmul t q u (1, 0) = u := by
  simp [qmul]

theorem qmul_assoc (t q : ℚ) (u v w : ℚ × ℚ) :
    qmul t q (qmul t q u v) w = qmul t q u (qmul t q v w) := by
  simp only [qmul, Prod.mk.injEq]
  constructor <;> ring

theorem rep_oneH {n : Nat} (z : H n) : rep z (1, 0) = 1 := by
  simp only [rep, embed_oneH, mulScalar_zeroH, add_zero]

theorem rep_zH {n : Nat} (z : H n) : rep z (0, 1) = z := by
  simp only [rep, embed_zeroH, mulScalar_oneH, zero_add]

theorem rep_mulH {n : Nat} (z : H n) (u v : ℚ × ℚ) :
    rep z u * rep z v = rep z (qmul (2 * realPart z) (absSq z) u v) := by
  obtain ⟨a, b⟩ := u
  obtain ⟨c, d⟩ := v
  simp only [rep, qmul]
  simp only [
    (mul_add_bothH (embed n c + mulScalar z d) (embed n a) (mulScalar z b)).2,
    (mul_add_bothH (embed n a) (embed n c) (mulScalar z d)).1,
    (mul_add_bothH (mulScalar z b) (embed n c) (mulScalar z d)).1,
    (embed_mul_bothH a (embed n c)).1,
    (embed_mul_bothH a (mulScalar z d)).1,
    (mulScalar_mul_bothH z (embed n c) b).1,
    (embed_mul_bothH c z).2,
    (mulScalar_mul_bothH z (mulScalar z d) b).1,
    (mulScalar_mul_bothH z z d).2,
    zsqH, mulScalar_subH, mulScalar_mulScalarH, mulScalar_embedH,
    embed_subH, mulScalar_add_scalarH, mul_assoc]
  abel

theorem powuTail_repH {n : Nat} (z : H (n + 1)) :
    ∀ (m : Nat) (u acc : ℚ × ℚ),
      powuTail (rep z u) m (rep z acc) =
        rep z (qpowTail (2 * realPart z) (absSq z) u m acc) := by
  intro m
  induction m using Nat.strong_induction_on with
  | _ m ih =>
    match m with
    | 0 => intro u acc; simp [powuTail, qpowTail]
    | m + 1 =>
      intro u acc
      rw [powuTail, qpowTail]
      by_cases h : (m + 1) % 2 = 0
      · rw [if_pos h, if_pos h, rep_mulH, ih ((m + 1) / 2) (by omega)]
      · rw [if_neg h, if_neg h, rep_mulH, rep_mulH, ih (m / 2) (by omega)]

theorem qpow_sq (t q : ℚ) (u : ℚ × ℚ) :
    ∀ (k : Nat), qpow t q (qmul t q u u) k = qpow t q u (2 * k)
  | 0 => rfl
  | k + 1 => by
    show qmul t q (qpow t q (qmul t q u u) k) (qmul t q u u) = _
    rw [qpow_sq t q u k, Nat.mul_succ]
    show _ = qmul t q (qpow t q u (2 * k + 1)) u
    show _ = qmul t q (qmul t q (qpow t q u (2 * k)) u) u
    rw [qmul_assoc]

theorem qpowTail_eq (t q : ℚ) : ∀ (m : Nat) (u acc : ℚ × ℚ),
    qpowTail t q u m acc = qmul t q (qpow t q u m) acc := by
  intro m
  induction m using Nat.strong_induction_on with
  | _ m ih =>
    match m with
    | 0 =>
      intro u acc
      rw [qpowTail]
      show acc = qmul t q (1, 0) acc
      simp [qmul]
    | m + 1 =>
      intro u acc
      rw [qpowTail]
      by_cases h : (m + 1) % 2 = 0
      · rw [if_pos h, ih ((m + 1) / 2) (by omega), qpow_sq,
          show 2 * ((m + 1) / 2) = m + 1 by omega]
      · rw [if_neg h, ih (m / 2) (by omega), qpow_sq, ← qmul_assoc,
          show qmul t q (qpow t q u (2 * (m / 2))) u = qpow t q u (2 * (m / 2) + 1) from rfl,
          show 2 * (m / 2) + 1 = m + 1 by omega]

theorem naivePow_repH {n : Nat} (z : H (n + 1)) :
    ∀ (m : Nat), naivePow z m = rep z (qpow (2 * realPart z) (absSq z) (0, 1) m)
  | 0 => (rep_oneH z).symm
  | m + 1 => by
    have t1 : naivePow z (m + 1) =
        rep z (qpow (2 * realPart z) (absSq z) (0, 1) m) * rep z (0, 1) := by
      show naivePow z m * z = _
      rw [naivePow_repH z m, rep_zH]
    rw [t1, rep_mulH]
    rfl

/-- The main repeated-squaring correctness theorem: `powu` agrees with the
naive `Mul` fold at every depth and for every exponent. -/
theorem powu_eq_naivePowH {n : Nat} (z : H (n + 1)) (m : Nat) :
    powu z m = naivePow z m := by
  have h0 : powu z m = powuTail (rep z (0, 1)) m (rep z (1, 0)) := by
    rw [rep_zH, rep_oneH]; rfl
  rw [h0, powuTail_repH z m (0, 1) (1, 0), qpowTail_eq, qmul_one_right,
    naivePow_repH z m]

/-! ### Claim theorems -/

/-- C1: for every pair of values of the same nesting depth, the
multiplication operator returns exactly the Cayley-Dickson product:
`re = a₀·b₀ − conj(b₁)·a₁` and `im = b₁·a₀ + a₁·conj(b₀)`, with this
operand order and this placement of conjugation. -/
theorem mul_is_cayley_dickson {n : Nat} (a b : H (n + 1)) :
    (a * b).re = a.re * b.re - conj b.im * a.im ∧
    (a * b).im = b.im * a.re + a.im * conj b.re :=
  ⟨rfl, rfl⟩

/-- C2: at every depth, the division operator's computation
`a * conj(b) * inv_real(b * conj(b))` — which reciprocates only the real
leaf of `b * conj(b)` — coincides with multiplying `a * conj(b)` by the
scalar reciprocal `1 / abs_sq(b)`; this rests on `b * conj(b)` being the
real-chain embedding of `abs_sq(b)`, i.e. every non-real leaf of
`b * conj(b)` is zero. -/
theorem div_is_conj_scaled_by_recip_norm {n : Nat} (a b : H (n + 1)) :
    dv a b = mulScalar (a * conj b) (1 / absSq b) ∧
    b * conj b = embed (n + 1) (absSq b) :=
  ⟨dv_eqH a b, (normRealH b).1⟩

/-- C3: the claimed round-trip `parse(to_string(z)) == Ok(z)` fails on the
code: formatting `1 + 2i` (src/fmt.rs puts spaces around the sign) produces
a string the anchored parse regex (which admits no spaces) cannot match, so
`from_str` panics at `Regex::captures(s).unwrap()` (modelled by `none`)
instead of returning `Ok(Complex::new(1., 2.))`. -/
theorem roundtrip_format_then_parse_panics :
    fmt1 ⟨1, 2⟩ = "1 + 2i" ∧ fromStr1 "1 + 2i" = none :=
  ⟨by decide, by decide⟩

/-- C4: at every depth and for every exponent, `powu` — implemented by the
repeated-squaring accumulator `powu_tail` — equals the naive linear fold of
`Mul` from `one()`, and `powu(z, 0) = one()`. -/
theorem powu_is_iterated_product {n : Nat} (z : H (n + 1)) (m : Nat) :
    powu z m = naivePow z m ∧ powu z 0 = oneI :=
  ⟨powu_eq_naivePowH z m, powu_eq_naivePowH z 0⟩

/-- C5: evaluation of the cross-depth subtraction at the failing input
`x = 0+0i` (depth 1), `y = (0+0i, 1+0i)` (depth 2): the source's
shallow-minus-deep operator copies `y.im` without negating it, so
`x - y ≠ embed(x) - y` (the claimed law), while the deep-minus-shallow
order does agree with `y - embed(x)`. -/
theorem sub_cross_depth_keeps_im_unnegated :
    subUp (⟨0, 0⟩ : H 1) (⟨⟨0, 0⟩, ⟨1, 0⟩⟩ : H 2) = ⟨⟨0, 0⟩, ⟨1, 0⟩⟩ ∧
    embedUp (⟨0, 0⟩ : H 1) - (⟨⟨0, 0⟩, ⟨1, 0⟩⟩ : H 2) = ⟨⟨0, 0⟩, ⟨-1, 0⟩⟩ ∧
    subDown (⟨⟨0, 0⟩, ⟨1, 0⟩⟩ : H 2) (⟨0, 0⟩ : H 1) =
      (⟨⟨0, 0⟩, ⟨1, 0⟩⟩ : H 2) - embedUp ⟨0, 0⟩ := by
  refine ⟨?_, ?_, ?_⟩ <;>
    norm_num [subUp, subDown, embedUp, subD, zeroQ]

/-- C6: `from_slice` performs no length check: on the length-3 input
`[1, 2, 3]` for the depth-1 type it silently truncates (returns
`Complex::new(1., 2.)`, dropping `3.`), and on the empty input the scalar
leaf indexes `v[0]` out of bounds (a panic, modelled by `none`) — it never
returns an explicit error value. -/
theorem from_slice_truncates_silently :
    fromSlice (α := H 1) [1, 2, 3] = some ⟨1, 2⟩ ∧
    fromSlice (α := H 1) [] = none := by
  constructor <;> decide

/-- C7: evaluation of depth-1 `from_str` at the failing input `"4b+1i"`:
the anchored regex does not match, so the source panics at
`Regex::captures(s).unwrap()` (modelled by `none`) instead of returning
`Err(ComplexParseError)`.  The typed error is reachable (empty input), and
the working path is faithful (`"4+1i"` parses to `4 + 1i`, as the crate's
own test expects). -/
theorem parse_unmatched_input_panics :
    fromStr1 "4b+1i" = none ∧
    fromStr1 "" = some (.error ⟨⟩) ∧
    fromStr1 "4+1i" = some (.ok ⟨4, 1⟩) := by
  refine ⟨by decide, by decide, ?_⟩
  have h : captures1 "4+1i".data = some (some ['4'], some ['+', '1']) := by decide
  have h1 : splitFloat ['4'] = some ⟨false, ['4'], [], false, []⟩ := by decide
  have h2 : splitFloat ['+', '1'] = some ⟨false, ['1'], [], false, []⟩ := by decide
  have d1 : digitsVal ['4'] = 4 := by decide
  have d2 : digitsVal ['1'] = 1 := by decide
  have d0 : digitsVal [] = 0 := by decide
  rw [fromStr1, h]
  simp [ratParseFloat, h1, h2, partsVal, d1, d2, d0]

/-- C8 counterexample: at depth 1 the calls `j()` and `k()` do not fail —
each returns the value `(0, 1)` (the `type_name` branch for `f64`/`f32` in
src/lib.rs:670-708), refuting the claim that they are restricted or error. -/
theorem jk_defined_at_depth1 :
    jC 1 = (⟨0, 1⟩ : H 1) ∧ kC 1 = (⟨0, 1⟩ : H 1) :=
  ⟨rfl, rfl⟩

/-- C8 (amended): at depth 1, `i()` returns `(0, 1)`, and `j()` and `k()`
are defined as well — each also returns `(0, 1)`, aliasing `i()` rather
than failing. -/
theorem imaginary_constants_at_depth1 :
    iC 1 = (⟨0, 1⟩ : H 1) ∧ jC 1 = (⟨0, 1⟩ : H 1) ∧ kC 1 = (⟨0, 1⟩ : H 1) :=
  ⟨rfl, rfl, rfl⟩

/-- C9: at every depth and for every `i32` exponent, `powi` returns the
additive identity `zero()` when `n = 0`, `1. / powu(z, |n|)` (the
scalar-over-value division) when `n < 0`, and `powu(z, n)` when `n > 0`. -/
theorem powi_case_split {n : Nat} (z : H (n + 1)) (num : Int) :
    (num = 0 → powi z num = zeroI) ∧
    (num < 0 → powi z num = scalarDiv 1 (powu z num.natAbs)) ∧
    (0 < num → powi z num = powu z num.natAbs) := by
  refine ⟨fun h => by simp [powi, h], fun h => ?_, fun h => ?_⟩
  · rw [powi, if_neg (by omega), if_pos h]
  · rw [powi, if_neg (by omega), if_neg (by omega),
      show num.toNat = num.natAbs by omega]

/-- C9 witness: the three cases of `powi` evaluated at `z = i` (depth 1)
with exponents `-3`, `0` and `2`. -/
theorem powi_case_split_witness :
    powi (⟨0, 1⟩ : H 1) (-3) = scalarDiv 1 (powu ⟨0, 1⟩ (Int.natAbs (-3))) ∧
    powi (⟨0, 1⟩ : H 1) 0 = zeroI ∧
    powi (⟨0, 1⟩ : H 1) 2 = powu ⟨0, 1⟩ (Int.natAbs 2) :=
  ⟨(powi_case_split ⟨0, 1⟩ (-3)).2.1 (by decide),
   (powi_case_split ⟨0, 1⟩ 0).1 rfl,
   (powi_case_split ⟨0, 1⟩ 2).2.2 (by decide)⟩

/-- C10: the generated quaternion basis constants satisfy the Hamilton
relations under the Cayley-Dickson product:
`i² = j² = k² = −1` and `i·j = k`. -/
theorem quaternion_hamilton_relations :
    iC 2 * iC 2 = -(oneI : H 2) ∧
    jC 2 * jC 2 = -(oneI : H 2) ∧
    kC 2 * kC 2 = -(oneI : H 2) ∧
    iC 2 * jC 2 = kC 2 := by
  refine ⟨?_, ?_, ?_, ?_⟩ <;>
    norm_num [mulD, conjD, conjQ, iC, jC, kC, zeroD, zeroQ, oneD, oneQ,
      addD, subD, negD]

end CD
